import Mathlib

/-!
Verification development for the AFI extractor (`src/run_all.py`).

Text is modelled as `List Char`.  The Python regular-expression calls are
modelled by hand-written scanners that implement the exact matching
semantics of the patterns appearing in the source.  The Unicode NFKC
normalization step performed by `unicodedata.normalize("NFKC", s)` (an
external library call) is modelled by `nfkc`, a canonical-composition
scan over a restricted composition table; this model is exact on ASCII
text, on all special characters the program manipulates (`DASH_CHARS`,
`ZERO_WIDTH`, `NBSP`, the whitespace set), and on sequences built from
the table's base/combining-mark pairs.
-/

namespace AFIX

/-- Characters of Python's `ZERO_WIDTH` constant. -/
def zeroWidthChars : List Char :=
  ['​', '‌', '‍', '⁠', '﻿', '‎', '‏']

/-- Characters of Python's `DASH_CHARS` constant (dash variants plus hyphen). -/
def dashChars : List Char :=
  ['‐', '‑', '‒', '–', '—', '―', '−', '-']

/-- The no-break space `NBSP`. -/
def nbspChar : Char := ' '

def isZeroWidth (c : Char) : Bool := zeroWidthChars.contains c

def isDashChar (c : Char) : Bool := dashChars.contains c

/-- Characters treated as whitespace by Python's `str.strip()` and by `\s`
in `str` regular expressions. -/
def pyWsChars : List Char :=
  [' ', '\t', '\n', '\r', '\x0b', '\x0c', '\x1c', '\x1d', '\x1e', '\x1f',
   '\x85', ' ', ' ', ' ', ' ', ' ', ' ',
   ' ', ' ', ' ', ' ', ' ', ' ', ' ',
   ' ', ' ', ' ', ' ', '　']

def isPyWs (c : Char) : Bool := pyWsChars.contains c

/-- The character class `[ \t]` of the run-collapsing step in `norm`. -/
def isSpaceTab (c : Char) : Bool := c == ' ' || c == '\t'

/-- ASCII model of the regex `\d` / `[0-9]` class. -/
def isAsciiDigit (c : Char) : Bool := c.isDigit

/-- ASCII model of the regex `\w` class used by `\b` word boundaries. -/
def isWordChar (c : Char) : Bool := c.isAlpha || c.isDigit || c == '_'

/-- Drop the longest suffix whose characters satisfy `p`. -/
def rdropWhileP (p : Char → Bool) (l : List Char) : List Char :=
  (l.reverse.dropWhile p).reverse

/-- Python `str.strip()` (no argument): strip whitespace from both ends. -/
def pyStrip (l : List Char) : List Char :=
  rdropWhileP isPyWs (l.dropWhile isPyWs)

/-- Python `str.strip(chars)`: strip the characters of `cs` from both ends. -/
def stripSet (cs : List Char) (l : List Char) : List Char :=
  rdropWhileP (fun c => cs.contains c) (l.dropWhile (fun c => cs.contains c))

/-- Python `re.sub(r"[ \t]+", " ", s)`: replace every maximal run of spaces/tabs by
one space.  The flag records whether we are inside a run whose replacement
space has already been emitted. -/
def collapseST (sw : Bool) : List Char → List Char
  | [] => []
  | c :: rest =>
    if isSpaceTab c then
      if sw then collapseST true rest else ' ' :: collapseST true rest
    else c :: collapseST false rest

/-- Python `re.sub(r"\s{2,}", " ", s)`: replace every maximal run of two or more
whitespace characters by one space (runs of length one are kept). -/
def collapseWs2 (sw : Bool) : List Char → List Char
  | [] => []
  | c :: rest =>
    if isPyWs c then
      if sw then collapseWs2 true rest
      else
        match rest with
        | [] => [c]
        | d :: _ =>
          if isPyWs d then ' ' :: collapseWs2 true rest
          else c :: collapseWs2 false rest
    else c :: collapseWs2 false rest

/-- The sequential `s.replace(ch, "")` loop over `ZERO_WIDTH`. -/
def stripZeroWidth (l : List Char) : List Char :=
  l.filter (fun c => !isZeroWidth c)

/-- Python `s.replace(NBSP, " ")` (a single-character replacement). -/
def mapNbsp (l : List Char) : List Char :=
  l.map (fun c => if c = nbspChar then ' ' else c)

/-- Python `s.replace("\r", "\n")` (a single-character replacement). -/
def mapCr (l : List Char) : List Char :=
  l.map (fun c => if c = '\r' then '\n' else c)

/-- Python `DASH_RE.sub("-", s)`: map every dash variant to an ASCII hyphen. -/
def mapDash (l : List Char) : List Char :=
  l.map (fun c => if isDashChar c then '-' else c)

/-- Canonical composition of a base character with an immediately
following combining mark.  Modelled from the Unicode normalization data,
restricted to the single pair this development exercises: LATIN SMALL
LETTER E (U+0065) followed by COMBINING ACUTE ACCENT (U+0301) composes
to LATIN SMALL LETTER E WITH ACUTE (U+00E9); every other pair is left
uncomposed. -/
def composePair (c m : Char) : Option Char :=
  if c = 'e' ∧ m = '́' then some 'é' else none

/-- One left-to-right canonical-composition pass: try to compose the
pending character with the next one; a composed character stays pending
(it may compose with a further mark), an uncomposable pair emits the
pending character and moves on.  A non-combining character between a base
and a mark (such as a zero-width joiner) therefore blocks composition,
as in the real algorithm. -/
def nfkcAux (c : Char) : List Char → List Char
  | [] => [c]
  | d :: rest =>
    match composePair c d with
    | some x => nfkcAux x rest
    | none => c :: nfkcAux d rest

/-- Python `unicodedata.normalize("NFKC", s)` (external Unicode library
call), modelled by the restricted canonical composition `composePair`:
exact on every input whose characters lie outside the table's domain —
in particular on ASCII and on the program's special character sets — and
on sequences built from the table's pairs. -/
def nfkc : List Char → List Char
  | [] => []
  | c :: rest => nfkcAux c rest

/-- The line normalizer `norm` of `run_all.py`: NFKC normalization, then
zero-width removal, `NBSP` and carriage-return replacement, space/tab-run
collapsing, dash mapping and stripping. -/
def norm (l : List Char) : List Char :=
  pyStrip (mapDash (collapseST false (mapCr (mapNbsp (stripZeroWidth (nfkc l))))))

/-- The character set of `tidy`'s `strip(" -.()[]:;")`. -/
def tidyStripChars : List Char := [' ', '-', '.', '(', ')', '[', ']', ':', ';']

/-- The `tidy` helper of `run_all.py`. -/
def tidy (l : List Char) : List Char :=
  pyStrip (stripSet tidyStripChars (collapseWs2 false l))

/-! ### The scan of `re.finditer(r"\(([^)]*?)\)", s)`

The pattern matches, scanning left to right, each pair of a `(` and the
first `)` following it; the content between them never contains `)`.
`parenScanAux` performs that scan: `pending` is the position of the first
unmatched `(` seen since the last complete match, `best` the bounds
(start, one past end) of the most recent match. -/

def parenScanAux : List Char → Nat → Option Nat → Option (Nat × Nat) → Option (Nat × Nat)
  | [], _, _, best => best
  | c :: rest, pos, pending, best =>
    if c = '(' then
      parenScanAux rest (pos + 1) (match pending with | some p => some p | none => some pos) best
    else if c = ')' then
      match pending with
      | some p => parenScanAux rest (pos + 1) none (some (p, pos + 1))
      | none => parenScanAux rest (pos + 1) none best
    else parenScanAux rest (pos + 1) pending best

/-- Bounds of the last match of `\(([^)]*?)\)` in `l`, if any. -/
def lastParen (l : List Char) : Option (Nat × Nat) :=
  parenScanAux l 0 none none

/-- Python slice `l[a:b]`. -/
def slice (l : List Char) (a b : Nat) : List Char :=
  (l.drop a).take (b - a)

/-- Python `inside.split("-", 1)` followed by the `tidy` of each part:
classification before the first hyphen, entity after it (empty when there
is no hyphen). -/
def splitCE (inside : List Char) : List Char × List Char :=
  let pre := inside.takeWhile (fun c => c ≠ '-')
  match inside.dropWhile (fun c => c ≠ '-') with
  | _ :: after => (tidy pre, tidy after)
  | [] => (tidy pre, [])

/-- Does `(?i)\b(major|other)\b` match at position `i` of `s`? -/
def kwAt (s : List Char) (i : Nat) : Bool :=
  let w := (s.drop i).take 5
  (w.map Char.toLower == "major".toList || w.map Char.toLower == "other".toList)
  && (match i with
      | 0 => true
      | Nat.succ i' =>
        match s.get? i' with
        | some c => !isWordChar c
        | none => true)
  && (match s.get? (i + 5) with
      | some c => !isWordChar c
      | none => true)

/-- Start position and matched text of the last match of
`(?i)\b(major|other)\b` in `s` (matches never overlap, so the last match
of `re.finditer` is the largest matching position). -/
def lastKw (s : List Char) : Option (Nat × List Char) :=
  match ((List.range s.length).filter (fun i => kwAt s i)).getLast? with
  | some i => some (i, (s.drop i).take 5)
  | none => none

/-- Python `str.capitalize()` (ASCII model). -/
def capitalizeW : List Char → List Char
  | [] => []
  | c :: rest => c.toUpper :: rest.map Char.toLower

/-- Python `s.find("-", i)`: index of the first hyphen at or after `i`. -/
def findDashFrom (s : List Char) (i : Nat) : Option Nat :=
  match (s.drop i).findIdx? (fun c => c = '-') with
  | some d => some (i + d)
  | none => none

/-- The keyword fallback path of `extract_ce_anywhere` (the code after the
parenthesis branch). -/
def kwPath (s : List Char) : List Char × List Char × List Char :=
  match lastKw s with
  | some (i, w) =>
    (match findDashFrom s i with
     | some d =>
       let ent := tidy (s.drop (d + 1))
       if ent = [] then (tidy s, [], [])
       else (tidy (s.take i), capitalizeW w, ent)
     | none => (tidy s, [], []))
  | none => (tidy s, [], [])

/-- Function `extract_ce_anywhere` of `run_all.py`: returns
(cleaned text, classification, entity). -/
def extract_ce_anywhere (s : List Char) : List Char × List Char × List Char :=
  match lastParen s with
  | some (a, b) =>
    let inside := pyStrip (mapDash (slice s (a + 1) (b - 1)))
    let ce := splitCE inside
    if ce.1 = [] ∧ ce.2 = [] then kwPath s
    else (tidy (pyStrip (s.take a ++ ' ' :: s.drop b)), ce.1, ce.2)
  | none => kwPath s

/-- Does the pattern occur at the start of the text? -/
def matchesHere : List Char → List Char → Bool
  | [], _ => true
  | _ :: _, [] => false
  | p :: ps, c :: cs => p == c && matchesHere ps cs

/-- One non-overlapping left-to-right replacement pass of Python
`str.replace` for a non-empty pattern: when the pattern matches at the
current position, emit the replacement, consume the head and skip the
remaining `pat.length - 1` matched characters (the first argument counts
characters still to skip). -/
def replaceOcc (pat rep : List Char) : Nat → List Char → List Char
  | _, [] => []
  | skip + 1, _ :: rest => replaceOcc pat rep skip rest
  | 0, c :: rest =>
    if matchesHere pat (c :: rest) then
      rep ++ replaceOcc pat rep (pat.length - 1) rest
    else c :: replaceOcc pat rep 0 rest

/-- Python `s.replace(pat, rep)` (the empty pattern inserts `rep` at every
position, as in Python; that case is unreachable here). -/
def pyReplace (s pat rep : List Char) : List Char :=
  if pat = [] then rep ++ (s.map (fun c => c :: rep)).flatten
  else replaceOcc pat rep 0 s

/-- The `buf` list accumulated by `extract_ce_across_lines`: the tail of
the first line from its first `(`, then every following line up to and
including the first one containing `)`. -/
def takeThroughClose : List (List Char) → List (List Char)
  | [] => []
  | l :: rest => if l.contains ')' then [l] else l :: takeThroughClose rest

def crossBuf (line_list : List (List Char)) (idx : Nat) (line : List Char) : List (List Char) :=
  line.drop (line.findIdx (fun c => c = '(')) :: takeThroughClose (line_list.drop (idx + 1))

/-- The loop counter `j` after the accumulation loop of
`extract_ce_across_lines`: index of the first line after `idx` containing
`)`, or `len(line_list)` when the loop exhausts the input. -/
def crossJ (line_list : List (List Char)) (idx : Nat) : Nat :=
  match (line_list.drop (idx + 1)).findIdx? (fun l => l.contains ')') with
  | some t => idx + 1 + t
  | none => line_list.length

/-- The `combined = norm(" ".join(buf))` value. -/
def crossCombined (line_list : List (List Char)) (idx : Nat) (line : List Char) : List Char :=
  norm (List.intercalate [' '] (crossBuf line_list idx line))

/-- Function `extract_ce_across_lines` of `run_all.py`: returns
(cleaned text, classification, entity, index of the last consumed line).
In the source the reported index is `min(j, len(line_list)-1)`, an `int`
that can be `-1` only when `line_list` is empty, which cannot happen for
the callers (the current line is a member of `line_list`); here the
subtraction is the truncated `Nat` subtraction. -/
def extract_ce_across_lines (line_list : List (List Char)) (idx : Nat)
    (first_line : List Char) : List Char × List Char × List Char × Nat :=
  if first_line.contains '(' ∧ ¬ first_line.contains ')' then
    let combined := crossCombined line_list idx first_line
    let j := crossJ line_list idx
    match lastParen combined with
    | some (a, b) =>
      let inside := pyStrip (mapDash (slice combined (a + 1) (b - 1)))
      let ce := splitCE inside
      let cleaned := norm (pyReplace first_line (slice combined a b) [' '])
      (tidy cleaned, ce.1, ce.2, min j (line_list.length - 1))
    | none => (tidy first_line, [], [], min j (line_list.length - 1))
  else
    let r := extract_ce_anywhere first_line
    (r.1, r.2.1, r.2.2, idx)

/-! ### Line-shape matchers

Hand-written models of the anchored regular expressions classifying lines.
`$` in a Python pattern (without `MULTILINE`) matches at the end of the
string or just before a trailing newline; lazy/greedy repetition and the
induced backtracking are resolved statically below, following the actual
matching order of the `re` engine. -/

/-- The positions where `$` can match: end of string, i.e. the remaining
text is empty or a single final newline consumed by a preceding `\s*`. -/
def dollarOk (u : List Char) : Bool := u == [] || u == ['\n']

/-- Pattern `(.+)$` anchored at the start of `u` (greedy): the whole of `u`, or
`u` minus one trailing newline; `.` never matches a newline. -/
def dotPlusDollar (u : List Char) : Option (List Char) :=
  if ¬ u.contains '\n' then (if u = [] then none else some u)
  else if u.getLast? = some '\n' ∧ ¬ u.dropLast.contains '\n' ∧ u.dropLast ≠ [] then
    some u.dropLast
  else none

/-- Pattern `\s*(.+)$` (`minWs = 0`) or `\s+(.+)$` (`minWs = 1`) anchored at the
start of `u`: the greedy whitespace run backtracks from its maximal length
down to `minWs` until `(.+)$` matches. -/
def wsDotPlusDollar (minWs : Nat) (u : List Char) : Option (List Char) :=
  let kmax := (u.takeWhile isPyWs).length
  if kmax < minWs then none
  else ((List.range (kmax + 1 - minWs)).map (fun t => kmax - t)).findSome?
    (fun k => dotPlusDollar (u.drop k))

/-- Python `RE_NUM_ITEM.match(line)` for `^\s*(\d+)\s*-\s*(.+?)\s*$`: returns the
digit group and group 2.  After the hyphen, the greedy `\s*` takes the
maximal whitespace run; if anything remains, the lazy `(.+?)\s*$` yields
the remainder minus trailing whitespace (failing when that still contains
a newline); if nothing remains the engine backtracks into the whitespace
run and group 2 becomes its last non-newline character. -/
def reNumItem (s : List Char) : Option (List Char × List Char) :=
  let t := s.dropWhile isPyWs
  let digits := t.takeWhile isAsciiDigit
  if digits = [] then none
  else
    match (t.dropWhile isAsciiDigit).dropWhile isPyWs with
    | '-' :: u =>
      let core := u.dropWhile isPyWs
      if core ≠ [] then
        let g2 := rdropWhileP isPyWs core
        if g2.contains '\n' then none else some (digits, g2)
      else
        match (u.filter (fun c => c ≠ '\n')).getLast? with
        | some c => some (digits, [c])
        | none => none
    | _ => none

/-- Inside a digit run of a `(?:\.[0-9]+)*` scan: consume digits, then
either start another dot-plus-digit group or stop, returning
(matched extension, rest). -/
def ngAux : List Char → List Char × List Char
  | [] => ([], [])
  | c :: rest =>
    if isAsciiDigit c then
      let r := ngAux rest
      (c :: r.1, r.2)
    else if c = '.' then
      match rest with
      | e :: rest' =>
        if isAsciiDigit e then
          let r := ngAux rest'
          ('.' :: e :: r.1, r.2)
        else ([], '.' :: e :: rest')
      | [] => ([], ['.'])
    else ([], c :: rest)

/-- The `(?:\.[0-9]+)*` tail of the process-number group: the greedy scan
of dot-plus-digit-run groups, returning (matched extension, rest). -/
def numGroups : List Char → List Char × List Char
  | '.' :: rest =>
    (match rest with
     | e :: rest' =>
       if isAsciiDigit e then
         let r := ngAux rest'
         ('.' :: e :: r.1, r.2)
       else ([], '.' :: e :: rest')
     | [] => ([], ['.']))
  | other => ([], other)

/-- Python `RE_PROCESS.match(line)` for
`(?i)^\s*process\s*[:\-]?\s*([0-9]+(?:\.[0-9]+)*)\s+(.+)$`. -/
def processMatch (s : List Char) : Option (List Char × List Char) :=
  let t := s.dropWhile isPyWs
  if (t.take 7).map Char.toLower = "process".toList then
    let r2 := (t.drop 7).dropWhile isPyWs
    let r3 := match r2 with
      | ':' :: rest => rest
      | '-' :: rest => rest
      | _ => r2
    let r4 := r3.dropWhile isPyWs
    let d0 := r4.takeWhile isAsciiDigit
    if d0 = [] then none
    else
      let g := numGroups (r4.dropWhile isAsciiDigit)
      match wsDotPlusDollar 1 g.2 with
      | some g2 => some (d0 ++ g.1, g2)
      | none => none
  else none

/-- Word boundary `\b` after a keyword: next character absent or not a
word character. -/
def bAfter (rest : List Char) : Bool :=
  match rest with
  | [] => true
  | c :: _ => !isWordChar c

/-- Python `RE_PROC_SIMPLE.match(line)` for
`(?i)^\s*(Value|Operational|Business)\b(?:\s*[:\-–—]\s*(.+))?$`: returns
the matched label text (original case) and the optional free-text tail. -/
def procSimpleMatch (s : List Char) : Option (List Char × Option (List Char)) :=
  let t := s.dropWhile isPyWs
  let n : Option Nat :=
    if (t.take 5).map Char.toLower = "value".toList ∧ bAfter (t.drop 5) then some 5
    else if (t.take 11).map Char.toLower = "operational".toList ∧ bAfter (t.drop 11) then some 11
    else if (t.take 8).map Char.toLower = "business".toList ∧ bAfter (t.drop 8) then some 8
    else none
  match n with
  | none => none
  | some k =>
    let matched := t.take k
    let rest := t.drop k
    let afterWs := rest.dropWhile isPyWs
    match afterWs with
    | sep :: u =>
      if sep = ':' ∨ sep = '-' ∨ sep = '–' ∨ sep = '—' then
        match wsDotPlusDollar 0 u with
        | some g2 => some (matched, some g2)
        | none => if dollarOk rest then some (matched, none) else none
      else if dollarOk rest then some (matched, none) else none
    | [] => if dollarOk rest then some (matched, none) else none

/-- The `\s*:?\s*$` tail of the section-header patterns. -/
def tailColonDollar (u : List Char) : Bool :=
  match u.dropWhile isPyWs with
  | [] => true
  | ':' :: v => v.dropWhile isPyWs == []
  | _ => false

/-- Python `RE_AFI_HDR.match(line)` for
`(?i)^\s*areas?\s+(for|of)\s+improvement\s*:?\s*$` as a Boolean. -/
def afiHdr (s : List Char) : Bool :=
  let t := s.dropWhile isPyWs
  if (t.take 4).map Char.toLower = "area".toList then
    let t1 := t.drop 4
    let t2 := match t1 with
      | c :: rest => if c.toLower = 's' then rest else t1
      | [] => t1
    if (t2.takeWhile isPyWs).length = 0 then false
    else
      let t3 := t2.dropWhile isPyWs
      let t4 : Option (List Char) :=
        if (t3.take 3).map Char.toLower = "for".toList then some (t3.drop 3)
        else if (t3.take 2).map Char.toLower = "of".toList then some (t3.drop 2)
        else none
      match t4 with
      | none => false
      | some t5 =>
        if (t5.takeWhile isPyWs).length = 0 then false
        else
          let t6 := t5.dropWhile isPyWs
          if (t6.take 11).map Char.toLower = "improvement".toList then
            tailColonDollar (t6.drop 11)
          else false
  else false

/-- Python `RE_RECO_HDR.match(line)` for `(?i)^\s*recommendations?\s*:?\s*$`. -/
def recoHdr (s : List Char) : Bool :=
  let t := s.dropWhile isPyWs
  if (t.take 14).map Char.toLower = "recommendation".toList then
    let t1 := t.drop 14
    let t2 := match t1 with
      | c :: rest => if c.toLower = 's' then rest else t1
      | [] => t1
    tailColonDollar t2
  else false

/-- Python `re.fullmatch(r"\([^)]*\)", line)`: the line is exactly one
parenthesized group. -/
def parenOnly (s : List Char) : Bool :=
  match s with
  | '(' :: rest =>
    (match rest.getLast? with
     | some ')' => !(rest.dropLast.contains ')')
     | _ => false)
  | _ => false

/-! ### The core parser state machine of `process_file` -/

/-- One AFI item dictionary `{"num": ..., "text": ..., "cls": ..., "ent": ...}`. -/
structure AfiItem where
  num : Option Nat
  text : List Char
  cls : List Char
  ent : List Char
deriving DecidableEq

/-- One output row, as written by `write_row` (the worksheet columns). -/
structure OutRec where
  afi : List Char
  cls : List Char
  reco : List Char
  ent : List Char
  process : List Char
  src : List Char
deriving DecidableEq

/-- The mutable locals of `process_file` that drive one document's parse;
`out` collects the rows written so far.  `recs` models the Python dict
(insertion-ordered association list with unique keys). -/
structure PState where
  inAfi : Bool
  inReco : Bool
  processLabel : List Char
  afis : List AfiItem
  recs : List (List Char × List Char)
  curRecNum : Option (List Char)
  curRecParts : List (List Char)
  lastAfiIdx : Option Nat
  out : List OutRec
deriving DecidableEq

def initState : PState :=
  { inAfi := false, inReco := false, processLabel := [], afis := [], recs := [],
    curRecNum := none, curRecParts := [], lastAfiIdx := none, out := [] }

/-- Python `recs.get(k)` on the dict model. -/
def assocGet : List (List Char × List Char) → List Char → Option (List Char)
  | [], _ => none
  | (k, v) :: rest, q => if k = q then some v else assocGet rest q

/-- Python `recs[k] = v` on the dict model: replace in place, else append. -/
def assocSet : List (List Char × List Char) → List Char → List Char → List (List Char × List Char)
  | [], k, v => [(k, v)]
  | (k', v') :: rest, k, v =>
    if k' = k then (k, v) :: rest else (k', v') :: assocSet rest k v

/-- The nested `flush_reco` of `process_file`: join the non-empty pending
fragments with `" | "`, append the result to any existing accumulator
entry for the current key (with a `" | "` separator), and clear the
pending key and fragments. -/
def flush_reco (st : PState) : PState :=
  match st.curRecNum with
  | some k =>
    let txt := List.intercalate " | ".toList (st.curRecParts.filter (fun t => t ≠ []))
    let recs' :=
      if txt = [] then st.recs
      else
        let prev := match assocGet st.recs k with | some v => v | none => []
        assocSet st.recs k (prev ++ (if prev = [] then [] else " | ".toList) ++ txt)
    { st with recs := recs', curRecNum := none, curRecParts := [] }
  | none => { st with curRecNum := none, curRecParts := [] }

/-- Python `int(m.group(1))` on a digit string. -/
def digitsToNat (l : List Char) : Nat :=
  l.foldl (fun n c => 10 * n + (c.toNat - '0'.toNat)) 0

/-- Python `str(n)` for a natural number. -/
def natToDec (n : Nat) : List Char := Nat.toDigits 10 n

/-- The fallback-numbering loop at flush time: `seq` starts at 1 and each
item with a `None` number receives the current `seq`, which then
increments; explicitly numbered items are left unchanged. -/
def assignNums (seq : Nat) : List AfiItem → List AfiItem
  | [] => []
  | a :: rest =>
    match a.num with
    | none => { a with num := some seq } :: assignNums (seq + 1) rest
    | some _ => a :: assignNums seq rest

/-- The sort key `int(x["num"])` (every item is numbered at sort time). -/
def keyNum (a : AfiItem) : Nat :=
  match a.num with | some n => n | none => 0

/-- Stable insertion into a list sorted by `keyNum`, placing the new
element before the first element with a key not smaller than its own. -/
def insertAfi (a : AfiItem) : List AfiItem → List AfiItem
  | [] => [a]
  | b :: rest => if keyNum a ≤ keyNum b then a :: b :: rest else b :: insertAfi a rest

/-- The stable ascending sort `sorted(afis, key=lambda x: int(x["num"]))`. -/
def sortAfis (l : List AfiItem) : List AfiItem := l.foldr insertAfi []

/-- Function `write_row` of `run_all.py`, as the row it writes: the AFI text is
re-extracted, and an empty classification/entity is filled from that
second extraction. -/
def write_row (afi_text cls ent reco_text process_label src_file : List Char) : OutRec :=
  let r := extract_ce_anywhere afi_text
  { afi := r.1
    cls := if cls = [] ∧ r.2.1 ≠ [] then r.2.1 else cls
    reco := reco_text
    ent := if ent = [] ∧ r.2.2 ≠ [] then r.2.2 else ent
    process := process_label
    src := src_file }

/-- The block flush of `process_file` (performed at a process header and at
end of input): resolve fallback numbers, sort by resolved number, and
write one row per item, looking its recommendation up by the decimal
string of its number (empty when absent). -/
def flushBlock (label src : List Char) (afis : List AfiItem)
    (recs : List (List Char × List Char)) : List OutRec :=
  (sortAfis (assignNums 1 afis)).map (fun a =>
    write_row a.text a.cls a.ent
      (match assocGet recs (natToDec (keyNum a)) with | some v => v | none => [])
      label src)

/-- The common actions of a process-header line: flush the pending
recommendation, emit the current block if nonempty, then reset state with
the new label. -/
def headerFlush (src : List Char) (st : PState) (label : List Char) : PState :=
  let st1 := flush_reco st
  let st2 :=
    if st1.afis ≠ [] ∨ st1.recs ≠ [] then
      { st1 with out := st1.out ++ flushBlock st1.processLabel src st1.afis st1.recs }
    else st1
  { st2 with
      inAfi := false
      inReco := false
      processLabel := label
      afis := []
      recs := []
      lastAfiIdx := none }

/-- The `IN_AFI` branch of the loop body. -/
def stepAfi (lines : List (List Char)) (st : PState) (line : List Char) (i : Nat) :
    PState × Nat :=
  if parenOnly line then
    let r := extract_ce_anywhere line
    let st' :=
      match st.lastAfiIdx with
      | some k =>
        if r.2.1 ≠ [] ∨ r.2.2 ≠ [] then
          match st.afis.get? k with
          | some old =>
            let upd : AfiItem :=
              { old with
                  cls := if old.cls = [] then r.2.1 else old.cls
                  ent := if old.ent = [] then r.2.2 else old.ent }
            { st with afis := st.afis.set k upd }
          | none => st
        else st
      | none => st
    (st', i + 1)
  else
    match reNumItem line with
    | some (digs, body) =>
      let r := extract_ce_across_lines lines i body
      ({ st with
          afis := st.afis ++
            [{ num := some (digitsToNat digs), text := r.1, cls := r.2.1, ent := r.2.2.1 }]
          lastAfiIdx := some st.afis.length },
       max i r.2.2.2 + 1)
    | none =>
      if line.contains '(' then
        let r := extract_ce_across_lines lines i line
        if r.2.1 ≠ [] ∨ r.2.2.1 ≠ [] then
          ({ st with
              afis := st.afis ++
                [{ num := none, text := r.1, cls := r.2.1, ent := r.2.2.1 }]
              lastAfiIdx := some st.afis.length },
           r.2.2.2 + 1)
        else (st, i + 1)
      else (st, i + 1)

/-- The `IN_RECO` branch of the loop body. -/
def stepReco (st : PState) (line : List Char) (i : Nat) : PState × Nat :=
  match reNumItem line with
  | some (digs, body) =>
    let st1 := flush_reco st
    ({ st1 with curRecNum := some digs, curRecParts := [tidy body] }, i + 1)
  | none =>
    ({ st with
        curRecNum := some (match st.curRecNum with | some k => k | none => ['1'])
        curRecParts := st.curRecParts ++ [tidy line] },
     i + 1)

/-- One iteration of the `while` loop of `process_file`, at line index `i`:
returns the new state and the next line index. -/
def step (lines : List (List Char)) (src : List Char) (st : PState) (i : Nat) :
    PState × Nat :=
  let line := match lines[i]? with | some l => l | none => []
  match processMatch line with
  | some (g1, g2) => (headerFlush src st (g1 ++ " – ".toList ++ g2), i + 1)
  | none =>
    match procSimpleMatch line with
    | some (w, tl) =>
      let label := capitalizeW w ++
        (match tl with | some tail => " – ".toList ++ tail | none => [])
      (headerFlush src st label, i + 1)
    | none =>
      if afiHdr line then
        ({ flush_reco st with inAfi := true, inReco := false, lastAfiIdx := none }, i + 1)
      else if recoHdr line then
        ({ flush_reco st with
            inAfi := false
            inReco := true
            curRecNum := none
            curRecParts := [] }, i + 1)
      else if st.inAfi then stepAfi lines st line i
      else if st.inReco then stepReco st line i
      else (st, i + 1)

/-- Iterate `step` while `i < lines.length`, with explicit fuel (each step
increases `i` by at least one, so `lines.length` fuel runs the loop to
completion). -/
def runSteps (lines : List (List Char)) (src : List Char) :
    Nat → PState → Nat → PState × Nat
  | 0, st, i => (st, i)
  | fuel + 1, st, i =>
    if i < lines.length then
      let r := step lines src st i
      runSteps lines src fuel r.1 r.2
    else (st, i)

/-! ### Predicates and fixtures used by the claims -/

/-- The parenthesis branch of `extract_ce_anywhere` does not return: there
is no parenthesized group, or the last one splits to an empty
classification and an empty entity. -/
def parenFails (s : List Char) : Bool :=
  match lastParen s with
  | some (a, b) =>
    (splitCE (pyStrip (mapDash (slice s (a + 1) (b - 1))))).1.isEmpty
      && (splitCE (pyStrip (mapDash (slice s (a + 1) (b - 1))))).2.isEmpty
  | none => true

/-- The keyword branch of `extract_ce_anywhere` does not return: no
keyword, or no hyphen after it, or an empty entity after the hyphen. -/
def kwFails (s : List Char) : Bool :=
  match lastKw s with
  | some (i, _) =>
    (match findDashFrom s i with
     | some d => (tidy (s.drop (d + 1))).isEmpty
     | none => true)
  | none => true

/-- Predicate: `extract_ce_anywhere` parses no annotation in `s`. -/
def anywhereFails (s : List Char) : Bool := parenFails s && kwFails s

/-- The cross-line fixture of the specification. -/
def c5Lines : List (List Char) :=
  ["Improve widget handling (".toList, "Major - Logistics)".toList]

def c5Item : AfiItem :=
  { num := none, text := "Improve widget handling".toList,
    cls := "Major".toList, ent := "Logistics".toList }

/-- A document prefix whose AFI block holds an explicitly numbered item
followed by an unnumbered (fallback-numbered) one. -/
def c3Lines : List (List Char) :=
  ["Areas for Improvement:".toList, "1 - Bad thing (Major - Ops)".toList,
   "Other stuff (Other - HR)".toList]

def c3wA : AfiItem := { num := none, text := ['a'], cls := [], ent := [] }

def c3wB : AfiItem := { num := none, text := ['b'], cls := [], ent := [] }

/-- The recommendation-section fixture of the specification. -/
def c7Lines : List (List Char) :=
  ["1 - Do X".toList, "continue doing X".toList, "2 - Do Y".toList]

/-- Same, with a middle line whose `tidy` is empty. -/
def c7cexLines : List (List Char) :=
  ["1 - Do X".toList, "-".toList, "2 - Do Y".toList]

def recoStart : PState := { initState with inReco := true }

def c10State : PState :=
  { initState with
      inReco := true
      recs := [("1".toList, "a".toList)]
      curRecNum := some "1".toList
      curRecParts := ["b".toList, [] ] }

/-! ### Helper lemmas -/

theorem kwPath_of_fails (s : List Char) (h : kwFails s = true) :
    kwPath s = (tidy s, [], []) := by
  unfold kwFails at h
  cases hK : lastKw s with
  | none => simp [kwPath, hK]
  | some iw =>
    obtain ⟨i, w⟩ := iw
    simp only [hK] at h
    cases hD : findDashFrom s i with
    | none => simp [kwPath, hK, hD]
    | some d =>
      simp only [hD] at h
      have he : tidy (s.drop (d + 1)) = [] := List.isEmpty_iff.mp h
      simp [kwPath, hK, hD, he]

theorem extract_eq_kwPath (s : List Char) (hp : parenFails s = true) :
    extract_ce_anywhere s = kwPath s := by
  unfold parenFails at hp
  cases hLP : lastParen s with
  | none => simp [extract_ce_anywhere, hLP]
  | some ab =>
    obtain ⟨a, b⟩ := ab
    simp only [hLP, Bool.and_eq_true, List.isEmpty_iff] at hp
    simp only [extract_ce_anywhere, hLP]
    rw [if_pos hp]

theorem assignNums_num (l : List AfiItem) : ∀ (seq k : Nat),
    ((assignNums seq l)[k]?).map AfiItem.num = l[k]?.map (fun a =>
      some (match a.num with
        | some n => n
        | none => seq + (l.take k).countP (fun b => b.num.isNone))) := by
  induction l with
  | nil => intro seq k; simp [assignNums]
  | cons a rest ih =>
    intro seq k
    cases hn : a.num with
    | none =>
      have e : assignNums seq (a :: rest) =
          { a with num := some seq } :: assignNums (seq + 1) rest := by
        simp [assignNums, hn]
      rw [e]
      cases k with
      | zero => simp [hn]
      | succ k' =>
        simp only [List.getElem?_cons_succ, List.take_succ_cons, List.countP_cons,
          ih (seq + 1) k']
        cases hr : rest[k']? with
        | none => rfl
        | some a' =>
          simp only [Option.map_some', Option.some.injEq]
          cases hbn : a'.num with
          | none => simp [hbn, hn]; omega
          | some m => simp [hbn]
    | some n =>
      have e : assignNums seq (a :: rest) = a :: assignNums seq rest := by
        simp [assignNums, hn]
      rw [e]
      cases k with
      | zero => simp [hn]
      | succ k' =>
        simp only [List.getElem?_cons_succ, List.take_succ_cons, List.countP_cons,
          ih seq k']
        cases hr : rest[k']? with
        | none => rfl
        | some a' =>
          simp only [Option.map_some', Option.some.injEq]
          cases hbn : a'.num with
          | none => simp [hbn, hn]
          | some m => simp [hbn]

theorem assignNums_fields (l : List AfiItem) : ∀ seq : Nat,
    (assignNums seq l).map (fun a => (a.text, a.cls, a.ent)) =
      l.map (fun a => (a.text, a.cls, a.ent)) := by
  induction l with
  | nil => intro seq; rfl
  | cons a rest ih =>
    intro seq
    cases hn : a.num with
    | none => simp [assignNums, hn, ih]
    | some n => simp [assignNums, hn, ih]

theorem insertAfi_perm (a : AfiItem) (l : List AfiItem) :
    List.Perm (insertAfi a l) (a :: l) := by
  induction l with
  | nil => exact List.Perm.refl _
  | cons b rest ih =>
    unfold insertAfi
    by_cases h : keyNum a ≤ keyNum b
    · rw [if_pos h]
    · rw [if_neg h]
      exact (List.Perm.cons b ih).trans (List.Perm.swap a b rest)

theorem sortAfis_perm (l : List AfiItem) : List.Perm (sortAfis l) l := by
  induction l with
  | nil => exact List.Perm.refl _
  | cons a rest ih =>
    have e : sortAfis (a :: rest) = insertAfi a (sortAfis rest) := rfl
    rw [e]
    exact (insertAfi_perm a (sortAfis rest)).trans (List.Perm.cons a ih)

theorem insertAfi_sorted (a : AfiItem) (l : List AfiItem)
    (h : l.Sorted (fun x y => keyNum x ≤ keyNum y)) :
    (insertAfi a l).Sorted (fun x y => keyNum x ≤ keyNum y) := by
  induction l with
  | nil => simp [insertAfi]
  | cons b rest ih =>
    rw [List.sorted_cons] at h
    unfold insertAfi
    by_cases hab : keyNum a ≤ keyNum b
    · rw [if_pos hab, List.sorted_cons]
      refine ⟨?_, List.sorted_cons.mpr h⟩
      intro c hc
      rcases List.mem_cons.mp hc with rfl | hc'
      · exact hab
      · exact le_trans hab (h.1 c hc')
    · rw [if_neg hab, List.sorted_cons]
      refine ⟨?_, ih h.2⟩
      intro c hc
      rcases List.mem_cons.mp ((insertAfi_perm a rest).mem_iff.mp hc) with rfl | hc'
      · exact le_of_not_le hab
      · exact h.1 c hc'

theorem sortAfis_sorted (l : List AfiItem) :
    (sortAfis l).Sorted (fun x y => keyNum x ≤ keyNum y) := by
  induction l with
  | nil => simp [sortAfis]
  | cons a rest ih => exact insertAfi_sorted a (sortAfis rest) ih

theorem assocGet_assocSet_self (recs : List (List Char × List Char)) (k v : List Char) :
    assocGet (assocSet recs k v) k = some v := by
  induction recs with
  | nil => simp [assocGet, assocSet]
  | cons p rest ih =>
    obtain ⟨k', v'⟩ := p
    unfold assocSet
    by_cases h : k' = k
    · rw [if_pos h]; simp [assocGet]
    · rw [if_neg h]; simp [assocGet, h, ih]

theorem intercalate_cons_ne_nil (f : List Char) (rest : List (List Char)) (hf : f ≠ []) :
    List.intercalate " | ".toList (f :: rest) ≠ [] := by
  cases rest with
  | nil => simpa [List.intercalate]
  | cons g t =>
    have e : List.intercalate " | ".toList (f :: g :: t) =
        f ++ (" | ".toList ++ List.intercalate " | ".toList (g :: t)) := by
      simp [List.intercalate, List.intersperse, List.flatten]
    rw [e]
    simp [hf]

/-! ### Claim C1 -/

/-- C1 (amended): when `extract_ce_anywhere` parses no annotation it
returns the tidy-trimmed source text with empty classification and
entity; when the cross-line variant finds no closing parenthesis in the
accumulated span it returns the tidy-trimmed first line with empty
classification and entity. -/
theorem claim_C1 :
    (∀ s : List Char, anywhereFails s = true →
      extract_ce_anywhere s = (tidy s, [], []))
    ∧ (∀ (lines : List (List Char)) (idx : Nat) (line : List Char),
        line.contains '(' = true → line.contains ')' = false →
        lastParen (crossCombined lines idx line) = none →
        (extract_ce_across_lines lines idx line).1 = tidy line
        ∧ (extract_ce_across_lines lines idx line).2.1 = []
        ∧ (extract_ce_across_lines lines idx line).2.2.1 = []) := by
  constructor
  · intro s h
    simp only [anywhereFails, Bool.and_eq_true] at h
    rw [extract_eq_kwPath s h.1]
    exact kwPath_of_fails s h.2
  · intro lines idx line h1 h2 h3
    have h1' : '(' ∈ line := by simpa using h1
    have h2' : ')' ∉ line := by simpa using h2
    simp [extract_ce_across_lines, h1', h2', h3]

/-- C1 counterexample: on `"abc."` no annotation is parsed, yet the
returned text is the tidy-trimmed `"abc"`, not the source unaltered. -/
theorem claim_C1_cex :
    anywhereFails "abc.".toList = true
    ∧ extract_ce_anywhere "abc.".toList = ("abc".toList, [], [])
    ∧ ("abc".toList : List Char) ≠ "abc.".toList := by decide

theorem claim_C1_witness :
    extract_ce_anywhere "abc.".toList = (tidy "abc.".toList, [], [])
    ∧ (extract_ce_across_lines ["x (".toList] 0 "x (".toList).1 = tidy "x (".toList :=
  ⟨claim_C1.1 "abc.".toList (by decide),
   (claim_C1.2 ["x (".toList] 0 "x (".toList (by decide) (by decide) (by decide)).1⟩

/-! ### Claim C2 -/

/-- C2: at flush time, every item with a null number receives
`1 + (number of null-numbered items before it)` — i.e. the fallback
counter starts at `1` and runs in order of addition, independently of the
explicit numbers — while an item with an explicit number keeps it. -/
theorem claim_C2 (afis : List AfiItem) (k : Nat) :
    ((assignNums 1 afis)[k]?).map AfiItem.num = afis[k]?.map (fun a =>
      some (match a.num with
        | some n => n
        | none => 1 + (afis.take k).countP (fun b => b.num.isNone)))
    ∧ (assignNums 1 afis).map (fun a => (a.text, a.cls, a.ent)) =
        afis.map (fun a => (a.text, a.cls, a.ent)) :=
  ⟨assignNums_num afis 1 k, assignNums_fields afis 1⟩

/-! ### Claim C3 -/

/-- C3 counterexample: a reachable process block (an explicitly numbered
item `1` followed by an unnumbered one) in which two items share the
resolved number `1` after fallback assignment. -/
theorem claim_C3_cex :
    ((assignNums 1 (runSteps c3Lines "doc.pdf".toList 3 initState 0).1.afis).map keyNum
      = [1, 1])
    ∧ ¬ ((assignNums 1 (runSteps c3Lines "doc.pdf".toList 3 initState 0).1.afis).map
        keyNum).Nodup := by decide

/-- C3 (amended): two items that both lacked an explicit number never
share a resolved number (fallback numbers are pairwise distinct);
collisions are possible only with explicitly numbered items. -/
theorem claim_C3 (afis : List AfiItem) (k1 k2 : Nat) (a1 a2 : AfiItem)
    (hk : k1 < k2) (h1 : afis[k1]? = some a1) (hn1 : a1.num = none)
    (h2 : afis[k2]? = some a2) (hn2 : a2.num = none) :
    ((assignNums 1 afis)[k1]?).map keyNum ≠ ((assignNums 1 afis)[k2]?).map keyNum := by
  have hsplit : afis.take k2 = afis.take (k1 + 1) ++ (afis.drop (k1 + 1)).take (k2 - (k1 + 1)) := by
    rw [← List.take_add]
    congr 1
    omega
  have hsucc : afis.take (k1 + 1) = afis.take k1 ++ afis[k1]?.toList := List.take_succ
  have hc : (afis.take k1).countP (fun b => b.num.isNone) <
      (afis.take k2).countP (fun b => b.num.isNone) := by
    rw [hsplit, List.countP_append, hsucc, List.countP_append, h1]
    have h1c : ([a1].countP (fun b => b.num.isNone)) = 1 := by
      simp [List.countP_cons, hn1]
    simp only [Option.toList_some, h1c]
    omega
  have comp : ∀ o : Option AfiItem, o.map keyNum =
      (o.map AfiItem.num).map (fun o2 => match o2 with | some n => n | none => 0) := by
    intro o; cases o <;> rfl
  rw [comp, comp, assignNums_num afis 1 k1, assignNums_num afis 1 k2, h1, h2]
  simp only [Option.map_some', hn1, hn2, ne_eq, Option.some.injEq]
  omega

theorem claim_C3_witness :
    ((assignNums 1 [c3wA, c3wB])[0]?).map keyNum ≠
      ((assignNums 1 [c3wA, c3wB])[1]?).map keyNum :=
  claim_C3 [c3wA, c3wB] 0 1 c3wA c3wB (by decide) (by decide) (by decide)
    (by decide) (by decide)

/-! ### Claim C4 -/

/-- C4 counterexample: `"Fix it. major -"` has no parenthesized
annotation, its last keyword is `major` at position 8 and a hyphen
follows at position 14, yet the extractor reports no classification
(the text after the hyphen tidy-trims to empty), contradicting the claim
that the capitalized keyword is returned whenever a hyphen follows. -/
theorem claim_C4_cex :
    parenFails "Fix it. major -".toList = true
    ∧ lastKw "Fix it. major -".toList = some (8, "major".toList)
    ∧ findDashFrom "Fix it. major -".toList 8 = some 14
    ∧ extract_ce_anywhere "Fix it. major -".toList = ("Fix it. major".toList, [], [])
    ∧ (extract_ce_anywhere "Fix it. major -".toList).2.1 ≠ "Major".toList := by decide

/-- C4 (amended): with no parenthesized annotation and `major`/`other` as
last keyword: when a hyphen follows and the text after it tidy-trims to
something non-empty, the extractor returns the tidy-trimmed text before
the keyword, the capitalized keyword and that entity; when no hyphen
follows, or the entity would be empty, no annotation is found and the
tidy-trimmed source is returned with empty classification/entity. -/
theorem claim_C4 (s : List Char) (i : Nat) (w : List Char)
    (hp : parenFails s = true) (hkw : lastKw s = some (i, w)) :
    (∀ d, findDashFrom s i = some d →
       (tidy (s.drop (d + 1)) ≠ [] →
          extract_ce_anywhere s = (tidy (s.take i), capitalizeW w, tidy (s.drop (d + 1))))
       ∧ (tidy (s.drop (d + 1)) = [] → extract_ce_anywhere s = (tidy s, [], [])))
    ∧ (findDashFrom s i = none → extract_ce_anywhere s = (tidy s, [], [])) := by
  rw [extract_eq_kwPath s hp]
  simp only [kwPath, hkw]
  constructor
  · intro d hd
    simp only [hd]
    constructor
    · intro hne
      rw [if_neg hne]
    · intro he
      rw [if_pos he]
  · intro hd
    simp only [hd]

theorem claim_C4_witness :
    extract_ce_anywhere "Fix it. major - Ops".toList =
      (tidy ("Fix it. major - Ops".toList.take 8), capitalizeW "major".toList,
       tidy ("Fix it. major - Ops".toList.drop 15)) :=
  ((claim_C4 "Fix it. major - Ops".toList 8 "major".toList (by decide) (by decide)).1
    14 (by decide)).1 (by decide)

/-! ### Claim C5 -/

/-- C5: in the AFI state, the line `"Improve widget handling ("` followed
by `"Major - Logistics)"` yields exactly one AFI item with text
`"Improve widget handling"`, classification `"Major"`, entity
`"Logistics"`, and processing resumes at index 2 (both lines consumed). -/
theorem claim_C5 :
    step c5Lines "doc.docx".toList { initState with inAfi := true } 0 =
      ({ initState with inAfi := true, afis := [c5Item], lastAfiIdx := some 0 }, 2) := by
  decide

/-! ### Claim C6 -/

/-- C6: the rows of a block flush are those of the resolved items sorted
ascending by resolved number (a permutation of the fallback-numbered item
list), each row's recommendation text being the accumulator entry at the
decimal string of its number, or empty when no entry exists. -/
theorem claim_C6 (label src : List Char) (afis : List AfiItem)
    (recs : List (List Char × List Char)) :
    ∃ items : List AfiItem,
      items.Perm (assignNums 1 afis)
      ∧ items.Sorted (fun x y => keyNum x ≤ keyNum y)
      ∧ flushBlock label src afis recs = items.map (fun a =>
          write_row a.text a.cls a.ent
            (match assocGet recs (natToDec (keyNum a)) with
             | some v => v
             | none => []) label src) :=
  ⟨sortAfis (assignNums 1 afis), sortAfis_perm _, sortAfis_sorted _, rfl⟩

/-! ### Claim C7 -/

/-- C7 counterexample: in the recommendation state, the lines
`["1 - Do X", "-", "2 - Do Y"]` append the empty tidy-trimmed fragment of
`"-"` to key `"1"`, and the flushed accumulator holds `"Do X"` — not the
`" | "`-join `"Do X | "` of all of that key's fragments in encounter
order, refuting the claim's join rule. -/
theorem claim_C7_cex :
    (flush_reco (runSteps c7cexLines "doc.docx".toList 3 recoStart 0).1).recs =
      [("1".toList, "Do X".toList), ("2".toList, "Do Y".toList)]
    ∧ tidy "-".toList = []
    ∧ List.intercalate " | ".toList ["Do X".toList, tidy "-".toList] = "Do X | ".toList
    ∧ ("Do X".toList : List Char) ≠ "Do X | ".toList := by decide

/-- C7 (amended): the example accumulator is as claimed; in the
recommendation state a numbered line flushes and opens its key seeded
with the tidy-trimmed remainder, an unnumbered line appends its
tidy-trimmed text to the open key (defaulting to `"1"`); at flush the
*non-empty* fragments are joined with `" | "` in encounter order (a flush
whose fragments are all empty changes nothing). -/
theorem claim_C7 :
    ((flush_reco (runSteps c7Lines "doc.docx".toList 3 recoStart 0).1).recs =
      [("1".toList, "Do X | continue doing X".toList), ("2".toList, "Do Y".toList)])
    ∧ (∀ (lines : List (List Char)) (src : List Char) (st : PState) (i : Nat)
        (line digs body : List Char),
        lines[i]? = some line →
        processMatch line = none → procSimpleMatch line = none →
        afiHdr line = false → recoHdr line = false →
        st.inAfi = false → st.inReco = true →
        reNumItem line = some (digs, body) →
        step lines src st i =
          ({ flush_reco st with curRecNum := some digs, curRecParts := [tidy body] },
           i + 1))
    ∧ (∀ (lines : List (List Char)) (src : List Char) (st : PState) (i : Nat)
        (line : List Char),
        lines[i]? = some line →
        processMatch line = none → procSimpleMatch line = none →
        afiHdr line = false → recoHdr line = false →
        st.inAfi = false → st.inReco = true →
        reNumItem line = none →
        step lines src st i =
          ({ st with
              curRecNum := some (match st.curRecNum with | some k => k | none => ['1'])
              curRecParts := st.curRecParts ++ [tidy line] },
           i + 1))
    ∧ (∀ (st : PState) (k : List Char),
        st.curRecNum = some k → assocGet st.recs k = none →
        (st.curRecParts.filter (fun t => t ≠ []) ≠ [] →
           assocGet (flush_reco st).recs k =
             some (List.intercalate " | ".toList (st.curRecParts.filter (fun t => t ≠ []))))
        ∧ (st.curRecParts.filter (fun t => t ≠ []) = [] →
           (flush_reco st).recs = st.recs)) := by
  refine ⟨by decide, ?_, ?_, ?_⟩
  · intro lines src st i line digs body hline hproc hsimple hafi hreco hA hR hnum
    simp [step, hline, hproc, hsimple, hafi, hreco, hA, hR, stepReco, hnum]
  · intro lines src st i line hline hproc hsimple hafi hreco hA hR hnum
    simp [step, hline, hproc, hsimple, hafi, hreco, hA, hR, stepReco, hnum]
  · intro st k hk hget
    simp only [flush_reco, hk]
    constructor
    · intro hne
      rcases hf : st.curRecParts.filter (fun t => t ≠ []) with _ | ⟨f, rest⟩
      · exact absurd hf hne
      · have hfne : f ≠ [] := by
          have hmem : f ∈ st.curRecParts.filter (fun t => t ≠ []) := by
            rw [hf]; exact List.mem_cons_self f rest
          have := List.of_mem_filter hmem
          simpa using this
        have htxt : List.intercalate " | ".toList
            (st.curRecParts.filter (fun t => t ≠ [])) ≠ [] := by
          rw [hf]; exact intercalate_cons_ne_nil f rest hfne
        rw [if_neg htxt]
        simp only [hget]
        simpa using assocGet_assocSet_self st.recs k _
    · intro hnil
      have htxt : List.intercalate " | ".toList
          (st.curRecParts.filter (fun t => t ≠ [])) = [] := by
        rw [hnil]; rfl
      rw [if_pos htxt]

theorem claim_C7_witness :
    (step ["3 - Z".toList] "d".toList recoStart 0 =
      ({ flush_reco recoStart with
          curRecNum := some "3".toList, curRecParts := [tidy "Z".toList] }, 1))
    ∧ (step ["hello".toList] "d".toList recoStart 0 =
      ({ recoStart with
          curRecNum := some (match recoStart.curRecNum with | some k => k | none => ['1'])
          curRecParts := recoStart.curRecParts ++ [tidy "hello".toList] }, 1))
    ∧ (assocGet (flush_reco { recoStart with
          curRecNum := some "1".toList, curRecParts := ["a".toList] }).recs "1".toList =
        some (List.intercalate " | ".toList
          (["a".toList].filter (fun t => t ≠ [])))) :=
  ⟨claim_C7.2.1 ["3 - Z".toList] "d".toList recoStart 0 "3 - Z".toList "3".toList
      "Z".toList (by decide) (by decide) (by decide) (by decide) (by decide) rfl rfl
      (by decide),
   claim_C7.2.2.1 ["hello".toList] "d".toList recoStart 0 "hello".toList (by decide)
      (by decide) (by decide) (by decide) (by decide) rfl rfl (by decide),
   (claim_C7.2.2.2 { recoStart with
        curRecNum := some "1".toList, curRecParts := ["a".toList] } "1".toList rfl
      (by decide)).1 (by decide)⟩

/-! ### Claim C9 -/

/-- C9: every written row re-runs the extractor on the item's AFI text:
the written AFI text is the re-extracted cleaned text; an empty
classification (resp. entity) is replaced by a non-empty re-extracted
one, and a non-empty classification (resp. entity) is never
overwritten. -/
theorem claim_C9 (afi_text cls ent reco label src : List Char) :
    (write_row afi_text cls ent reco label src).afi = (extract_ce_anywhere afi_text).1
    ∧ (cls ≠ [] → (write_row afi_text cls ent reco label src).cls = cls)
    ∧ (cls = [] → (extract_ce_anywhere afi_text).2.1 ≠ [] →
        (write_row afi_text cls ent reco label src).cls = (extract_ce_anywhere afi_text).2.1)
    ∧ (ent ≠ [] → (write_row afi_text cls ent reco label src).ent = ent)
    ∧ (ent = [] → (extract_ce_anywhere afi_text).2.2 ≠ [] →
        (write_row afi_text cls ent reco label src).ent = (extract_ce_anywhere afi_text).2.2) := by
  refine ⟨rfl, ?_, ?_, ?_, ?_⟩
  · intro h
    simp [write_row, h]
  · intro h1 h2
    simp [write_row, h1, h2]
  · intro h
    simp [write_row, h]
  · intro h1 h2
    simp [write_row, h1, h2]

theorem claim_C9_witness :
    (write_row "x (Major - Ops)".toList [] "E".toList "R".toList "P".toList "F".toList).cls
      = (extract_ce_anywhere "x (Major - Ops)".toList).2.1
    ∧ (write_row "x (Major - Ops)".toList [] "E".toList "R".toList "P".toList "F".toList).ent
      = "E".toList :=
  ⟨(claim_C9 "x (Major - Ops)".toList [] "E".toList "R".toList "P".toList "F".toList).2.2.1
      rfl (by decide),
   (claim_C9 "x (Major - Ops)".toList [] "E".toList "R".toList "P".toList "F".toList).2.2.2.1
      (by decide)⟩

/-! ### Claim C10 -/

/-- C10: re-opening an existing recommendation number appends the newly
joined text to the existing entry with a `" | "` separator (never
replacing it); fragments that are empty are dropped from the join, and a
flush whose fragments are all empty leaves the accumulator unchanged. -/
theorem claim_C10 (st : PState) (k prev : List Char) (hk : st.curRecNum = some k) :
    (assocGet st.recs k = some prev → prev ≠ [] →
       List.intercalate " | ".toList (st.curRecParts.filter (fun t => t ≠ [])) ≠ [] →
       assocGet (flush_reco st).recs k =
         some (prev ++ " | ".toList ++
           List.intercalate " | ".toList (st.curRecParts.filter (fun t => t ≠ []))))
    ∧ (List.intercalate " | ".toList (st.curRecParts.filter (fun t => t ≠ [])) = [] →
       (flush_reco st).recs = st.recs)
    ∧ ((flush_reco { st with curRecParts := st.curRecParts.filter (fun t => t ≠ []) }).recs
        = (flush_reco st).recs) := by
  refine ⟨?_, ?_, ?_⟩
  · intro hget hprev htxt
    simp only [flush_reco, hk]
    rw [if_neg htxt]
    simp only [hget]
    rw [if_neg hprev]
    simpa using assocGet_assocSet_self st.recs k _
  · intro htxt
    simp only [flush_reco, hk]
    rw [if_pos htxt]
  · simp only [flush_reco, hk]
    have hff : (st.curRecParts.filter (fun t => t ≠ [])).filter (fun t => t ≠ []) =
        st.curRecParts.filter (fun t => t ≠ []) := by
      rw [List.filter_filter]
      simp
    rw [hff]

theorem claim_C10_witness :
    assocGet (flush_reco c10State).recs "1".toList =
      some ("a".toList ++ " | ".toList ++
        List.intercalate " | ".toList (c10State.curRecParts.filter (fun t => t ≠ []))) :=
  (claim_C10 c10State "1".toList "a".toList rfl).1 (by decide) (by decide) (by decide)

/-! ### Claim C8: idempotence of the normalizer

The proof characterizes the image of `norm`: no zero-width characters, no
`NBSP`, no carriage return, no tab, no two adjacent space/tab characters,
only ASCII hyphens among the dash variants, and no surrounding
whitespace.  Each stage of `norm` is then the identity on such lists. -/

/-- No two adjacent characters are both in the `[ \t]` class. -/
def noTwoST (a b : Char) : Prop := ¬(isSpaceTab a = true ∧ isSpaceTab b = true)

theorem map_id_of_mem (f : Char → Char) :
    ∀ l : List Char, (∀ c ∈ l, f c = c) → l.map f = l := by
  intro l
  induction l with
  | nil => intro _; rfl
  | cons c rest ih =>
    intro h
    simp only [List.map_cons, h c (List.mem_cons_self c rest),
      ih (fun d hd => h d (List.mem_cons_of_mem c hd))]

theorem isSpaceTab_cases (c : Char) (h : isSpaceTab c = true) : c = ' ' ∨ c = '\t' := by
  simpa [isSpaceTab] using h

theorem isDashChar_not_ST (c : Char) (h : isDashChar c = true) : isSpaceTab c = false := by
  have hmem : c ∈ dashChars := by simpa [isDashChar] using h
  fin_cases hmem <;> decide

theorem mem_collapseST (l : List Char) :
    ∀ (sw : Bool) (c : Char), c ∈ collapseST sw l → c = ' ' ∨ c ∈ l := by
  induction l with
  | nil => intro sw c h; simp [collapseST] at h
  | cons d rest ih =>
    intro sw c h
    by_cases hd : isSpaceTab d = true
    · cases sw with
      | true =>
        simp only [collapseST, hd, if_true, if_pos] at h
        rcases ih true c h with h' | h'
        · exact Or.inl h'
        · exact Or.inr (List.mem_cons_of_mem d h')
      | false =>
        simp only [collapseST, hd, if_true, if_pos] at h
        rcases List.mem_cons.mp h with rfl | h'
        · exact Or.inl rfl
        · rcases ih true c h' with h'' | h''
          · exact Or.inl h''
          · exact Or.inr (List.mem_cons_of_mem d h'')
    · simp only [collapseST, hd, if_false, if_neg] at h
      rcases List.mem_cons.mp h with rfl | h'
      · exact Or.inr (List.mem_cons_self c rest)
      · rcases ih false c h' with h'' | h''
        · exact Or.inl h''
        · exact Or.inr (List.mem_cons_of_mem d h'')

theorem tab_not_mem_collapseST (l : List Char) :
    ∀ sw : Bool, '\t' ∉ collapseST sw l := by
  induction l with
  | nil => intro sw h; simp [collapseST] at h
  | cons d rest ih =>
    intro sw h
    by_cases hd : isSpaceTab d = true
    · cases sw with
      | true =>
        simp only [collapseST, hd, if_true, if_pos] at h
        exact ih true h
      | false =>
        simp only [collapseST, hd, if_true, if_pos] at h
        rcases List.mem_cons.mp h with he | h'
        · exact absurd he.symm (by decide)
        · exact ih true h'
    · simp only [collapseST, hd, if_false, if_neg] at h
      rcases List.mem_cons.mp h with he | h'
      · rw [← he] at hd
        exact hd (by decide)
      · exact ih false h'

theorem chain_collapseST (l : List Char) :
    List.Chain' noTwoST (collapseST true l)
    ∧ List.Chain' noTwoST (collapseST false l)
    ∧ (∀ c t, collapseST true l = c :: t → isSpaceTab c = false) := by
  induction l with
  | nil =>
    refine ⟨List.chain'_nil, List.chain'_nil, ?_⟩
    intro c t h
    simp [collapseST] at h
  | cons d rest ih =>
    by_cases hd : isSpaceTab d = true
    · have e1 : collapseST true (d :: rest) = collapseST true rest := by
        simp [collapseST, hd]
      have e0 : collapseST false (d :: rest) = ' ' :: collapseST true rest := by
        simp [collapseST, hd]
      refine ⟨by rw [e1]; exact ih.1, ?_, ?_⟩
      · rw [e0]
        refine List.chain'_cons'.mpr ⟨?_, ih.1⟩
        intro y hy
        cases hrest : collapseST true rest with
        | nil => rw [hrest] at hy; simp at hy
        | cons z t =>
          rw [hrest] at hy
          simp only [List.head?_cons, Option.mem_def, Option.some.injEq] at hy
          subst hy
          have hz := ih.2.2 z t hrest
          intro hc
          rw [hz] at hc
          exact Bool.false_ne_true hc.2
      · intro c t h
        rw [e1] at h
        exact ih.2.2 c t h
    · have e1 : collapseST true (d :: rest) = d :: collapseST false rest := by
        simp [collapseST, hd]
      have e0 : collapseST false (d :: rest) = d :: collapseST false rest := by
        simp [collapseST, hd]
      have hchain : List.Chain' noTwoST (d :: collapseST false rest) := by
        refine List.chain'_cons'.mpr ⟨?_, ih.2.1⟩
        intro y _
        intro hc
        exact Bool.false_ne_true ((Bool.not_eq_true _).mp (by simpa [hd] using hc.1) ▸ hc.1)
      refine ⟨by rw [e1]; exact hchain, by rw [e0]; exact hchain, ?_⟩
      intro c t h
      rw [e1] at h
      cases h
      simpa using hd

theorem collapseST_id (l : List Char) :
    '\t' ∉ l → List.Chain' noTwoST l →
    (collapseST false l = l
     ∧ ((∀ c t, l = c :: t → isSpaceTab c = false) → collapseST true l = l)) := by
  induction l with
  | nil => intro _ _; exact ⟨rfl, fun _ => rfl⟩
  | cons d rest ih =>
    intro hTab hChain
    have hTab' : '\t' ∉ rest := fun h => hTab (List.mem_cons_of_mem d h)
    have hChain' := (List.chain'_cons'.mp hChain).2
    have hHead := (List.chain'_cons'.mp hChain).1
    by_cases hd : isSpaceTab d = true
    · have hdsp : d = ' ' := by
        rcases isSpaceTab_cases d hd with h | h
        · exact h
        · exact absurd (h ▸ List.mem_cons_self d rest) hTab
      have hrestHead : ∀ c t, rest = c :: t → isSpaceTab c = false := by
        intro c t hct
        have : c ∈ rest.head? := by rw [hct]; rfl
        have hn := hHead c this
        by_contra hcst
        exact hn ⟨hd, (Bool.not_eq_false _).mp hcst⟩
      have htr : collapseST true rest = rest := (ih hTab' hChain').2 hrestHead
      subst hdsp
      constructor
      · show collapseST false (' ' :: rest) = ' ' :: rest
        simp [collapseST, hd, htr]
      · intro hh
        exact absurd hd (by simp [hh ' ' rest rfl])
    · have hfr : collapseST false rest = rest := (ih hTab' hChain').1
      constructor
      · show collapseST false (d :: rest) = d :: rest
        simp [collapseST, hd, hfr]
      · intro _
        show collapseST true (d :: rest) = d :: rest
        simp [collapseST, hd, hfr]

theorem rdropWhileP_pref (p : Char → Bool) (l : List Char) : rdropWhileP p l <+: l := by
  refine ⟨(l.reverse.takeWhile p).reverse, ?_⟩
  have h := congrArg List.reverse (List.takeWhile_append_dropWhile p l.reverse)
  rw [List.reverse_append, List.reverse_reverse] at h
  simpa [rdropWhileP] using h

theorem pyStrip_inf (l : List Char) : pyStrip l <:+: l := by
  obtain ⟨r, hr⟩ := rdropWhileP_pref isPyWs (l.dropWhile isPyWs)
  have hr2 : pyStrip l ++ r = List.dropWhile isPyWs l := hr
  refine ⟨l.takeWhile isPyWs, r, ?_⟩
  rw [List.append_assoc, hr2, List.takeWhile_append_dropWhile]

theorem head?_dropWhile (p : Char → Bool) :
    ∀ (l : List Char) (c : Char), (l.dropWhile p).head? = some c → p c = false := by
  intro l
  induction l with
  | nil => intro c h; simp [List.dropWhile] at h
  | cons d rest ih =>
    intro c h
    by_cases hd : p d = true
    · rw [List.dropWhile_cons_of_pos hd] at h
      exact ih c h
    · rw [List.dropWhile_cons_of_neg hd] at h
      simp only [List.head?_cons, Option.some.injEq] at h
      subst h
      exact (Bool.not_eq_true _).mp hd

theorem pyStrip_head (l : List Char) (c : Char)
    (h : (pyStrip l).head? = some c) : isPyWs c = false := by
  obtain ⟨r, hr⟩ := rdropWhileP_pref isPyWs (l.dropWhile isPyWs)
  apply head?_dropWhile isPyWs l c
  rw [← hr]
  show (pyStrip l ++ r).head? = some c
  cases hs : pyStrip l with
  | nil => rw [hs] at h; simp at h
  | cons c0 t =>
    rw [hs] at h
    simpa using h

theorem pyStrip_last (l : List Char) (c : Char)
    (h : (pyStrip l).getLast? = some c) : isPyWs c = false := by
  have e : pyStrip l = ((l.dropWhile isPyWs).reverse.dropWhile isPyWs).reverse := rfl
  rw [e, List.getLast?_reverse] at h
  exact head?_dropWhile isPyWs (l.dropWhile isPyWs).reverse c h

theorem dropWhile_id (p : Char → Bool) (l : List Char)
    (h : ∀ c, l.head? = some c → p c = false) : l.dropWhile p = l := by
  cases l with
  | nil => rfl
  | cons d rest => exact List.dropWhile_cons_of_neg (by simp [h d rfl])

theorem rdropWhileP_id (p : Char → Bool) (l : List Char)
    (h : ∀ c, l.getLast? = some c → p c = false) : rdropWhileP p l = l := by
  unfold rdropWhileP
  rw [dropWhile_id p l.reverse (fun c hc => h c (by rwa [List.head?_reverse] at hc)),
    List.reverse_reverse]

theorem pyStrip_id (l : List Char)
    (hh : ∀ c, l.head? = some c → isPyWs c = false)
    (hl : ∀ c, l.getLast? = some c → isPyWs c = false) : pyStrip l = l := by
  unfold pyStrip
  rw [dropWhile_id isPyWs l hh]
  exact rdropWhileP_id isPyWs l hl

theorem mem_norm_cases (s : List Char) (c : Char) (h : c ∈ norm s) :
    c = '-' ∨ c = ' ' ∨ c = '\n' ∨
      (c ∈ nfkc s ∧ isZeroWidth c = false ∧ c ≠ nbspChar ∧ c ≠ '\r' ∧ isDashChar c = false) := by
  have h1 : c ∈ mapDash (collapseST false (mapCr (mapNbsp (stripZeroWidth (nfkc s))))) :=
    (pyStrip_inf _).sublist.subset h
  rcases List.mem_map.mp h1 with ⟨d, hd, hcd⟩
  by_cases hdash : isDashChar d = true
  · left
    rw [← hcd]
    simp [hdash]
  · have hcd' : d = c := by rw [← hcd]; simp [hdash]
    subst hcd'
    rcases mem_collapseST _ _ _ hd with rfl | hd2
    · right; left; rfl
    · rcases List.mem_map.mp hd2 with ⟨e, he, hce⟩
      by_cases hcr : e = '\r'
      · right; right; left
        rw [← hce, hcr]
        simp
      · have hce' : e = d := by rw [← hce]; simp [hcr]
        subst hce'
        rcases List.mem_map.mp he with ⟨g, hg, hcg⟩
        by_cases hnb : g = nbspChar
        · right; left
          rw [← hcg, hnb]
          simp
        · have hcg' : g = e := by rw [← hcg]; simp [hnb]
          subst hcg'
          have hzw := List.mem_filter.mp hg
          right; right; right
          exact ⟨hzw.1, by simpa using hzw.2, hnb, hcr, by simpa using hdash⟩

theorem tab_not_mem_norm (s : List Char) : '\t' ∉ norm s := by
  intro h
  have h1 : '\t' ∈ mapDash (collapseST false (mapCr (mapNbsp (stripZeroWidth (nfkc s))))) :=
    (pyStrip_inf _).sublist.subset h
  rcases List.mem_map.mp h1 with ⟨d, hd, hcd⟩
  by_cases hdash : isDashChar d = true
  · rw [if_pos hdash] at hcd
    exact absurd hcd (by decide)
  · rw [if_neg hdash] at hcd
    subst hcd
    exact tab_not_mem_collapseST _ false hd

theorem chain_norm (s : List Char) : List.Chain' noTwoST (norm s) := by
  have h1 : List.Chain' noTwoST (collapseST false (mapCr (mapNbsp (stripZeroWidth (nfkc s))))) :=
    (chain_collapseST _).2.1
  have h2 : List.Chain' noTwoST
      (mapDash (collapseST false (mapCr (mapNbsp (stripZeroWidth (nfkc s)))))) := by
    refine List.chain'_map_of_chain' _ ?_ h1
    intro a b hab hc
    apply hab
    have hsta : isSpaceTab a = true := by
      by_cases ha : isDashChar a = true
      · rw [if_pos ha] at hc
        exact absurd hc.1 (by decide)
      · rw [if_neg ha] at hc
        exact hc.1
    have hstb : isSpaceTab b = true := by
      by_cases hb : isDashChar b = true
      · rw [if_pos hb] at hc
        exact absurd hc.2 (by decide)
      · rw [if_neg hb] at hc
        exact hc.2
    exact ⟨hsta, hstb⟩
  exact List.Chain'.infix h2 (pyStrip_inf _)

/-- C8 counterexample: the normalizer is not idempotent.  On
`"e" + ZERO WIDTH JOINER + COMBINING ACUTE ACCENT` the joiner blocks NFKC
composition and is then stripped, so the normalized line is
`"e" + U+0301` — a line in the image of the normalizer — yet normalizing
it again composes the pair to `U+00E9`, a different line. -/
theorem claim_C8_cex :
    norm ['e', '\u200D', '\u0301'] = ['e', '\u0301']
    ∧ norm ['e', '\u0301'] = ['\u00E9']
    ∧ (['e', '\u0301'] : List Char) ≠ ['\u00E9'] := by decide

/-- C8 (amended): the line normalizer is idempotent on every line whose
normalized form is NFKC-stable (NFKC of the output is the output itself)
— in particular on all ASCII lines; it is not idempotent in general,
because zero-width stripping can place a combining mark directly after
its base letter, which the next normalization's NFKC stage composes. -/
theorem claim_C8 (s : List Char) (h0 : nfkc (norm s) = norm s) :
    norm (norm s) = norm s := by
  have h1 : stripZeroWidth (norm s) = norm s := by
    apply List.filter_eq_self.mpr
    intro c hc
    rcases mem_norm_cases s c hc with rfl | rfl | rfl | ⟨_, hzw, _, _, _⟩
    · decide
    · decide
    · decide
    · simpa using hzw
  have h2 : mapNbsp (norm s) = norm s := by
    apply map_id_of_mem
    intro c hc
    rcases mem_norm_cases s c hc with rfl | rfl | rfl | ⟨_, _, hnb, _, _⟩
    · decide
    · decide
    · decide
    · simp [hnb]
  have h3 : mapCr (norm s) = norm s := by
    apply map_id_of_mem
    intro c hc
    rcases mem_norm_cases s c hc with rfl | rfl | rfl | ⟨_, _, _, hcr, _⟩
    · decide
    · decide
    · decide
    · simp [hcr]
  have h4 : collapseST false (norm s) = norm s :=
    (collapseST_id (norm s) (tab_not_mem_norm s) (chain_norm s)).1
  have h5 : mapDash (norm s) = norm s := by
    apply map_id_of_mem
    intro c hc
    rcases mem_norm_cases s c hc with rfl | rfl | rfl | ⟨_, _, _, _, hdash⟩
    · decide
    · decide
    · decide
    · simp [hdash]
  have h6 : pyStrip (norm s) = norm s :=
    pyStrip_id (norm s) (pyStrip_head _) (pyStrip_last _)
  calc norm (norm s)
      = pyStrip (mapDash (collapseST false (mapCr (mapNbsp (stripZeroWidth (nfkc (norm s))))))) :=
        rfl
    _ = norm s := by rw [h0, h1, h2, h3, h4, h5, h6]

theorem claim_C8_witness :
    nfkc (norm "  a \t b – c. ".toList) = norm "  a \t b – c. ".toList
    ∧ norm (norm "  a \t b – c. ".toList) = norm "  a \t b – c. ".toList :=
  ⟨by decide, claim_C8 "  a \t b – c. ".toList (by decide)⟩


end AFIX
